import Mathlib

/-!
Verification of the declaration-extraction-and-query engine of the
`mcp-whaileys` repository (`src/ast-parser.ts`), against its
natural-language specification.

The TypeScript code is shallowly embedded: JavaScript strings become Lean
`String`s (operated on through their `List Char` data), JS arrays become
`List`s, optional (possibly `undefined`) fields become `Option`s, and the
stable ES2019 `Array.prototype.sort` becomes the stable insertion sort
`List.insertionSort`.  JS regular-expression `replace` calls are embedded
as explicit left-to-right scanners with the same matching semantics.
-/

namespace Whaileys

/-! ## String primitives

JS `String.prototype` operations used by the source, modelled over
`List Char`.  `toLowerCase` is modelled by `Char.toLower` (the source only
meets ASCII identifiers), `\s` by `Char.isWhitespace`. -/

/-- JS `s.toLowerCase()`. -/
def strLower (s : String) : String := String.mk (s.data.map Char.toLower)

/-- JS `sub.isInfixOf`-style containment test: `s.includes(sub)` holds iff
`sub` occurs as a contiguous substring of `s`. -/
def listIsInfix [DecidableEq α] : List α → List α → Bool
  | sub, [] => sub.isEmpty
  | sub, c :: cs => sub.isPrefixOf (c :: cs) || listIsInfix sub cs

/-- JS `s.includes(sub)`. -/
def strIncludes (s sub : String) : Bool := listIsInfix sub.data s.data

/-- JS `s.startsWith(pre)`. -/
def strStartsWith (s pre : String) : Bool := pre.data.isPrefixOf s.data

/-- JS `s.trim()` on character lists: strip whitespace from both ends. -/
def trimChars (l : List Char) : List Char :=
  ((l.dropWhile Char.isWhitespace).reverse.dropWhile Char.isWhitespace).reverse

/-- JS `s.trim()`. -/
def strTrim (s : String) : String := String.mk (trimChars s.data)

/-- Scanner for JS `query.split(/\s+/)`: maximal whitespace runs separate
the pieces; a leading run contributes a leading `""`, a trailing run a
trailing `""`, and the empty string splits to `[""]`.  `cur` holds the
current piece reversed, `inWs` records whether the scanner stands inside a
whitespace run. -/
def jsSplitWsGo (cur : List Char) (inWs : Bool) : List Char → List String
  | [] => [String.mk cur.reverse]
  | c :: cs =>
    if c.isWhitespace then
      if inWs then jsSplitWsGo [] true cs
      else String.mk cur.reverse :: jsSplitWsGo [] true cs
    else jsSplitWsGo (c :: cur) false cs

/-- JS `s.split(/\s+/)`. -/
def jsSplitWs (s : String) : List String := jsSplitWsGo [] false s.data

/-! ## Data model (`ast-parser.ts` interfaces) -/

/-- Source `ExtractedKind`: the closed eight-value kind tag. -/
inductive EKind where
  | kInterface | kType | kEnum | kFunction | kClass | kVariable | kNamespace | kReExport
  deriving DecidableEq, Repr, Fintype

/-- The string each `ExtractedKind` value is at runtime (TS union of string
literals; the static type is erased, so runtime comparisons are string
comparisons). -/
def kindToString : EKind → String
  | .kInterface => "interface"
  | .kType => "type"
  | .kEnum => "enum"
  | .kFunction => "function"
  | .kClass => "class"
  | .kVariable => "variable"
  | .kNamespace => "namespace"
  | .kReExport => "re-export"

/-- Source `ExtractedType` (the uniform declaration record).  `extends` is a Lean
keyword, so that field is `extendsList` here; fields not examined by any
claim (`properties`, `methods`, `typeParameters`, `fullSignature`,
`value`, `lineNumber`) are omitted from the embedding.  Optional
(`undefined`-able) fields are `Option`s defaulting to `none`. -/
structure ExtractedType where
  name : String
  kind : EKind
  exported : Bool := true
  file : String := ""
  module : String := "root"
  signature : String := ""
  members : Option (List String) := none
  extendsList : Option (List String) := none
  implements : Option (List String) := none
  docs : Option String := none
  reExportSource : Option String := none
  deriving DecidableEq, Repr

/-- Source `ModuleStatistics` (the source's `variables` field is spelled
`variablesCount` here, `variables` being a reserved word in Lean). -/
structure ModuleStatistics where
  module : String
  interfaces : Nat
  types : Nat
  enums : Nat
  functions : Nat
  classes : Nat
  variablesCount : Nat
  namespaces : Nat
  reExports : Nat
  total : Nat
  deriving DecidableEq, Repr

/-- Source `LibraryStatistics`; `byKind` (a TS `Record` over the closed kind set,
every key present) is a total function. -/
structure LibraryStatistics where
  totalDeclarations : Nat
  byKind : EKind → Nat
  byModule : List ModuleStatistics
  topInterfaces : List String
  topTypes : List String
  topFunctions : List String

/-! ## Documentation extraction (`getJsDocs`) -/

/-- One attached documentation comment as `ts-morph` presents it:
`getDescription()` (tags stripped) and `getText()` (the raw comment text,
tags included). -/
structure JsDocComment where
  description : String
  text : String
  deriving DecidableEq, Repr

/-- Source `getJsDocs(node)`.  A node whose class lacks the `getJsDocs` method is
`none`; otherwise the node carries its (possibly empty) comment list.
Mirrors `jsDocs.map(d => d.getDescription?.() || d.getText?.())
.filter(Boolean).join('\n').trim()` — an empty (falsy) description falls
back to the raw text. -/
def getJsDocs (node : Option (List JsDocComment)) : Option String :=
  match node with
  | none => none
  | some jsDocs =>
    if jsDocs.length > 0 then
      some (strTrim (String.intercalate "\n"
        ((jsDocs.map (fun d => if d.description = "" then d.text else d.description)).filter
          (fun s => s ≠ ""))))
    else none

/-! ## Re-export extraction (`extractReExport`) -/

/-- One entry of `getNamedExports()`: the exported name and its optional
alias node text. -/
structure NamedExport where
  name : String
  aliasName : Option String
  deriving DecidableEq, Repr

/-- The parts of an `ExportDeclaration` node that `extractReExport`
reads. -/
structure ExportDeclData where
  moduleSpecifier : Option String
  namedExports : List NamedExport
  isNamespaceExport : Bool
  deriving DecidableEq, Repr

/-- Rendering `ne.getAliasNode() ? name + " as " + alias : name`. -/
def renderNamedExport (ne : NamedExport) : String :=
  match ne.aliasName with
  | some a => ne.name ++ " as " ++ a
  | none => ne.name

/-- Source `extractReExport(exportDecl, file, module)`. -/
def extractReExport (d : ExportDeclData) (file mod : String) : Option ExtractedType :=
  match d.moduleSpecifier with
  | none => none
  | some spec =>
    if d.isNamespaceExport then
      some { name := "* from \"" ++ spec ++ "\""
             kind := .kReExport
             exported := true
             file := file
             module := mod
             signature := "export * from \"" ++ spec ++ "\""
             reExportSource := some spec }
    else if 0 < d.namedExports.length then
      some { name := "\x7b " ++ String.intercalate ", " (d.namedExports.map renderNamedExport)
                     ++ " \x7d from \"" ++ spec ++ "\""
             kind := .kReExport
             exported := true
             file := file
             module := mod
             signature := "export \x7b " ++ String.intercalate ", " (d.namedExports.map renderNamedExport)
                          ++ " \x7d from \"" ++ spec ++ "\""
             reExportSource := some spec
             members := some (d.namedExports.map renderNamedExport) }
    else none

/-! ## Type-text simplification (`simplifyType`)

`simplifyType` chains five stages:
  `.replace(/import\([^)]+\)\./g, '')`
  `.replace(/typeof import\([^)]+\)\./g, '')`
  `.replace(/d:\/[^"]+\//g, '')`
  `.replace(/\s+/g, ' ')`
  `.trim()`
Each regex `replace` is a left-to-right scan: at every position the
pattern is tried; on a match the matched characters are dropped and the
scan resumes after them, otherwise one character is emitted.  The scans
are written with explicit fuel (one unit per emitted or skipped-over
position) so that they stay structurally recursive; `length + 1` fuel is
always enough. -/

/-- Try `/import\([^)]+\)\./` at the head of the list; on success return
the rest of the input after the match.  `[^)]+` cannot cross a `)`, so it
is exactly the maximal `)`‑free run, which must be nonempty and followed
by `).`. -/
def matchImport : List Char → Option (List Char)
  | 'i' :: 'm' :: 'p' :: 'o' :: 'r' :: 't' :: '(' :: rest =>
    if (rest.takeWhile (fun c => c ≠ ')')).isEmpty then none
    else
      match rest.dropWhile (fun c => c ≠ ')') with
      | ')' :: '.' :: rest2 => some rest2
      | _ => none
  | _ => none

/-- Try `/typeof import\([^)]+\)\./` at the head of the list: the
literal `typeof ` followed by the `import(...).` pattern. -/
def matchTypeofImport : List Char → Option (List Char)
  | 't' :: 'y' :: 'p' :: 'e' :: 'o' :: 'f' :: ' ' :: rest => matchImport rest
  | _ => none

/-- Try `/d:\/[^"]+\//` at the head of the list.  `[^"]+` is greedy: the
match runs through the *last* `/` inside the maximal `"`‑free run after
`d:/` (that run reversed and stripped of its `/`‑free tail), and needs at
least one character before that `/`. -/
def matchDrive : List Char → Option (List Char)
  | 'd' :: ':' :: '/' :: rest =>
    if 2 ≤ ((rest.takeWhile (fun c => c ≠ '"')).reverse.dropWhile (fun c => c ≠ '/')).length
    then some (rest.drop
      ((rest.takeWhile (fun c => c ≠ '"')).reverse.dropWhile (fun c => c ≠ '/')).length)
    else none
  | _ => none

/-- Fueled scanner for a global regex replacement with empty replacement
text. -/
def replaceAllF (m : List Char → Option (List Char)) : Nat → List Char → List Char
  | 0, l => l
  | _ + 1, [] => []
  | fuel + 1, c :: cs =>
    match m (c :: cs) with
    | some rest => replaceAllF m fuel rest
    | none => c :: replaceAllF m fuel cs

/-- Scanner for `s.replace(pattern, '')` with the global patterns above. -/
def replaceAll (m : List Char → Option (List Char)) (l : List Char) : List Char :=
  replaceAllF m (l.length + 1) l

/-- Scanner for `.replace(/\s+/g, ' ')`: each maximal whitespace run
becomes one space.  `inWs` records whether the scanner stands inside a
run already represented by an emitted space. -/
def collapseWsGo (inWs : Bool) : List Char → List Char
  | [] => []
  | c :: cs =>
    if c.isWhitespace then
      if inWs then collapseWsGo true cs
      else ' ' :: collapseWsGo true cs
    else c :: collapseWsGo false cs

/-- Stage `.replace(/\s+/g, ' ')`. -/
def collapseWs (l : List Char) : List Char := collapseWsGo false l

/-- Source `simplifyType` on character lists. -/
def simplifyTypeChars (l : List Char) : List Char :=
  trimChars (collapseWs (replaceAll matchDrive (replaceAll matchTypeofImport (replaceAll matchImport l))))

/-- Source `simplifyType(type)`. -/
def simplifyType (type : String) : String := String.mk (simplifyTypeChars type.data)

/-! ## The corpus index cache (`extractAllTypes`) -/

/-- The mutable `AstParser` state the cache lives in: `cachedTypes` is
`null` (`none`) until the first full extraction.  A JS array — also the
empty one — is truthy, so `if (this.cachedTypes)` tests exactly for
non-`null`. -/
structure AstParserState where
  cachedTypes : Option (List ExtractedType)
  deriving DecidableEq, Repr

/-- Source `extractAllTypes()`.  Scanning the source tree (`addSourceFiles` plus
the per-file extraction loop) is modelled by the fixed value `scan` — the
tree does not change within a session.  Returns the result, the new
state, and whether the tree was (re)scanned. -/
def extractAllTypes (scan : List ExtractedType) (st : AstParserState) :
    List ExtractedType × AstParserState × Bool :=
  match st.cachedTypes with
  | some ts => (ts, st, false)
  | none => (scan, ⟨some scan⟩, true)

/-! ## Queries -/

/-- The per-candidate score of `fuzzySearch`: whole-query bonus
(+100 exact / +50 prefix / +25 substring on the lowercased name), plus,
for each piece `w` of `lowerQuery.split(/\s+/)`, +10 if the lowercased
name contains `w` and +5 if the lowercased docs text (`type.docs || ''`)
contains `w`. -/
def fuzzyScore (query : String) (t : ExtractedType) : Nat :=
  let lowerQuery := strLower query
  let words := jsSplitWs lowerQuery
  let lowerName := strLower t.name
  let lowerDocs := strLower (t.docs.getD "")
  (if lowerName = lowerQuery then 100
   else if strStartsWith lowerName lowerQuery then 50
   else if strIncludes lowerName lowerQuery then 25
   else 0)
  + words.foldl (fun acc w =>
      acc + (if strIncludes lowerName w then 10 else 0)
          + (if strIncludes lowerDocs w then 5 else 0)) 0

/-- Comparator relation of `scored.sort((a, b) => b.score - a.score)`:
`a` may precede `b` iff `a`'s score is at least `b`'s.  ES2019 `sort` is
stable, hence the stable `List.insertionSort` below. -/
def scoreGE (a b : ExtractedType × Nat) : Prop := b.2 ≤ a.2

instance : DecidableRel scoreGE := fun a b => Nat.decLe b.2 a.2

instance : IsTotal (ExtractedType × Nat) scoreGE :=
  ⟨fun a b => (Nat.le_total b.2 a.2).imp id id⟩

instance : IsTrans (ExtractedType × Nat) scoreGE :=
  ⟨fun _ _ _ hab hbc => Nat.le_trans hbc hab⟩

/-- Source `fuzzySearch(query, maxResults)` over a built index (`maxResults`
defaults to 20 at the call sites). -/
def fuzzySearch (allTypes : List ExtractedType) (query : String) (maxResults : Nat) :
    List ExtractedType :=
  let scored := allTypes.map (fun t => (t, fuzzyScore query t))
  (((scored.filter (fun s => 0 < s.2)).insertionSort scoreGE).take maxResults).map (·.1)

/-- Source `getTypesByKind(kind)` as typed TS sees it. -/
def getTypesByKind (allTypes : List ExtractedType) (kind : EKind) : List ExtractedType :=
  allTypes.filter (fun t => t.kind = kind)

/-- Source `getTypesByKind` as it runs after type erasure: the filter compares
the record's kind string with whatever string arrives at runtime (e.g. an
unvalidated MCP argument cast to `ExtractedKind` at `index.ts:670`). -/
def getTypesByKindRT (allTypes : List ExtractedType) (kind : String) : List ExtractedType :=
  allTypes.filter (fun t => kindToString t.kind = kind)

/-- Step `byKind[type.kind]++`. -/
def bumpKind (bk : EKind → Nat) (k : EKind) : EKind → Nat :=
  fun k' => if k' = k then bk k' + 1 else bk k'

/-- The all-zero `ModuleStatistics` seeded for a newly seen module. -/
def initStats (m : String) : ModuleStatistics :=
  ⟨m, 0, 0, 0, 0, 0, 0, 0, 0, 0⟩

/-- Step `stats.total++` followed by the per-kind `switch`. -/
def bumpStats (s : ModuleStatistics) (k : EKind) : ModuleStatistics :=
  let s := { s with total := s.total + 1 }
  match k with
  | .kInterface => { s with interfaces := s.interfaces + 1 }
  | .kType => { s with types := s.types + 1 }
  | .kEnum => { s with enums := s.enums + 1 }
  | .kFunction => { s with functions := s.functions + 1 }
  | .kClass => { s with classes := s.classes + 1 }
  | .kVariable => { s with variablesCount := s.variablesCount + 1 }
  | .kNamespace => { s with namespaces := s.namespaces + 1 }
  | .kReExport => { s with reExports := s.reExports + 1 }

/-- One step of the `moduleMap` accumulation: create the module's record
on first sight (JS `Map` keeps insertion order — an association list),
then bump it. -/
def addType (ms : List ModuleStatistics) (t : ExtractedType) : List ModuleStatistics :=
  if ms.any (fun s => s.module = t.module) then
    ms.map (fun s => if s.module = t.module then bumpStats s t.kind else s)
  else
    ms ++ [bumpStats (initStats t.module) t.kind]

/-- Comparator relation of `byModule`'s `sort((a, b) => b.total - a.total)`. -/
def totalGE (a b : ModuleStatistics) : Prop := b.total ≤ a.total

instance : DecidableRel totalGE := fun a b => Nat.decLe b.total a.total

instance : IsTotal ModuleStatistics totalGE :=
  ⟨fun a b => (Nat.le_total b.total a.total).imp id id⟩

instance : IsTrans ModuleStatistics totalGE :=
  ⟨fun _ _ _ hab hbc => Nat.le_trans hbc hab⟩

/-- Source `getStatistics()` over a built index. -/
def getStatistics (allTypes : List ExtractedType) : LibraryStatistics :=
  { totalDeclarations := allTypes.length
    byKind := allTypes.foldl (fun bk t => bumpKind bk t.kind) (fun _ => 0)
    byModule := List.insertionSort totalGE (allTypes.foldl addType [])
    topInterfaces := ((allTypes.filter (fun t => t.kind = .kInterface)).take 10).map (·.name)
    topTypes := ((allTypes.filter (fun t => t.kind = .kType)).take 10).map (·.name)
    topFunctions := ((allTypes.filter (fun t => t.kind = .kFunction)).take 10).map (·.name) }

/-- The record `getTypeHierarchy` returns on a hit. -/
structure TypeHierarchy where
  type : ExtractedType
  parents : List String
  children : List String
  deriving DecidableEq, Repr

/-- What one candidate `t` pushes onto `children` for the target name:
`t.name` once if some `extends` entry contains the target as a substring
(`t.extends?.some(e => e.includes(type.name))`, absence of the list is
`false`), and once more if some `implements` entry does. -/
def childBlock (target : String) (t : ExtractedType) : List String :=
  (if (t.extendsList.getD []).any (fun e => strIncludes e target) then [t.name] else [])
  ++ (if (t.implements.getD []).any (fun i => strIncludes i target) then [t.name] else [])

/-- Source `getTypeHierarchy(typeName)` over a built index: first
case-insensitive exact name match, parents from the raw
`extends`/`implements` lists, children by case-sensitive substring
containment of the *found* record's name, every match (the queried record
included) pushing the candidate's name once per matching list. -/
def getTypeHierarchy (allTypes : List ExtractedType) (typeName : String) :
    Option TypeHierarchy :=
  match allTypes.find? (fun t => strLower t.name = strLower typeName) with
  | none => none
  | some type =>
    some { type := type
           parents := type.extendsList.getD [] ++ type.implements.getD []
           children := allTypes.flatMap (childBlock type.name) }

/-! ## Spec-side definitions (written from the claims' words, for the
refinement statements) -/

/-- Modelled from claim C1's words: "each whitespace-separated token of
the query" — the actual tokens, i.e. the nonempty pieces of the
whitespace split. -/
def specTokens (s : String) : List String := (jsSplitWs s).filter (fun t => t ≠ "")

/-- Claim C1's per-candidate score: the whole-query bonus (+100 exact
case-insensitive / +50 prefix / +25 substring), plus +10 per token the
name contains and +5 per token the docs text contains. -/
def specFuzzyScore (query : String) (t : ExtractedType) : Nat :=
  let lowerQuery := strLower query
  let words := specTokens lowerQuery
  let lowerName := strLower t.name
  let lowerDocs := strLower (t.docs.getD "")
  (if lowerName = lowerQuery then 100
   else if strStartsWith lowerName lowerQuery then 50
   else if strIncludes lowerName lowerQuery then 25
   else 0)
  + words.foldl (fun acc w =>
      acc + (if strIncludes lowerName w then 10 else 0)
          + (if strIncludes lowerDocs w then 5 else 0)) 0

/-- Claim C1's ranking: score, exclude zero scores, stable descending
sort, truncate to the limit. -/
def specFuzzySearch (allTypes : List ExtractedType) (query : String) (maxResults : Nat) :
    List ExtractedType :=
  let scored := allTypes.map (fun t => (t, specFuzzyScore query t))
  (((scored.filter (fun s => 0 < s.2)).insertionSort scoreGE).take maxResults).map (·.1)

/-! ## Quantities appearing in the statistics claim -/

/-- The sum of the eight `byKind` counters. -/
def sumByKind (bk : EKind → Nat) : Nat :=
  bk .kInterface + bk .kType + bk .kEnum + bk .kFunction
    + bk .kClass + bk .kVariable + bk .kNamespace + bk .kReExport

/-- The sum of the `total` fields of a module-statistics list. -/
def sumTotals (ms : List ModuleStatistics) : Nat := (ms.map (fun s => s.total)).sum

/-! ## Concrete records used by the per-claim counterexamples and
witnesses -/

/-- C1: an undocumented declaration whose name shares nothing with the
query `"q "`. -/
def exC1 : ExtractedType := { name := "zzz", kind := .kType }

/-- C1 witness declarations. -/
def exC1w : ExtractedType := { name := "sendMessage", kind := .kFunction, docs := some "send a message" }

/-- C8 counterexample index: `"FOO"` shadows `"Foo"` as the first
case-insensitive match, and `"Bar"` extends a string containing
`"Foo"`. -/
def exC8 : List ExtractedType :=
  [{ name := "FOO", kind := .kInterface },
   { name := "Foo", kind := .kInterface },
   { name := "Bar", kind := .kInterface, extendsList := some ["Foo"] }]

/-- C8 witness index: the queried name's first case-insensitive match is
the declaration itself. -/
def exC8w : List ExtractedType :=
  [{ name := "Foo", kind := .kInterface },
   { name := "Bar", kind := .kClass, extendsList := some ["Foo<T>"] }]

/-- C9 witness index: one self-referential declaration matching through
both its `extends` and its `implements` text. -/
def exC9 : List ExtractedType :=
  [{ name := "Foo", kind := .kClass, extendsList := some ["Foo"], implements := some ["XFooY"] }]

/-- C10 counterexample/witness declarations: an undocumented record ahead
of a documented one in index order. -/
def exC10a : ExtractedType := { name := "Aaa", kind := .kType }

/-- See `exC10a`. -/
def exC10b : ExtractedType := { name := "Bbb", kind := .kType, docs := some "well documented" }

/-! ## Helper lemmas -/

theorem listIsInfix_nil (l : List Char) : listIsInfix [] l = true := by
  cases l <;> simp [listIsInfix, List.isPrefixOf]

theorem strIncludes_empty (s : String) : strIncludes s "" = true := by
  simpa [strIncludes] using listIsInfix_nil s.data

theorem strStartsWith_empty (s : String) : strStartsWith s "" = true := by
  simp [strStartsWith, List.isPrefixOf]

theorem strLower_eq_empty_iff (s : String) : strLower s = "" ↔ s = "" := by
  constructor
  · intro h
    apply String.ext
    have : (strLower s).data = [] := by rw [h]
    simpa [strLower] using this
  · intro h
    subst h
    rfl

/-- Unfolding `getTypeHierarchy` on a hit of the case-insensitive name
search. -/
theorem getTypeHierarchy_of_find? {idx : List ExtractedType} {q : String}
    {type : ExtractedType}
    (h : idx.find? (fun t => strLower t.name = strLower q) = some type) :
    getTypeHierarchy idx q =
      some { type := type
             parents := type.extendsList.getD [] ++ type.implements.getD []
             children := idx.flatMap (childBlock type.name) } := by
  unfold getTypeHierarchy
  rw [h]

/-! ## Claim C6 — idempotence of `extractAll()` -/

/-- C6: a second `extractAllTypes()` call in the same session returns a
result equal to the first call's and does not re-scan the source tree,
for every source root — including one whose scan yields zero declarations
(a JS array, also `[]`, is truthy, so the cache check `if
(this.cachedTypes)` accepts the cached empty result). -/
theorem extractAllTypes_idempotent (scan : List ExtractedType) :
    (extractAllTypes scan (extractAllTypes scan ⟨none⟩).2.1).1
        = (extractAllTypes scan ⟨none⟩).1
      ∧ (extractAllTypes scan (extractAllTypes scan ⟨none⟩).2.1).2.2 = false := by
  exact ⟨rfl, rfl⟩

/-! ## Claim C3 — unrecognized kind filter -/

/-- C3 (the code at the claimed behavior's failing input): after type
erasure, `getTypesByKind` with a kind string outside the eight defined
kind strings silently returns the empty list — the plain equality filter
never aborts, contradicting the spec's requirement that an unrecognized
`kind` filter fail loudly and immediately. -/
theorem getTypesByKindRT_unknown_kind_silent (allTypes : List ExtractedType) (kind : String)
    (h : ∀ k : EKind, kindToString k ≠ kind) :
    getTypesByKindRT allTypes kind = [] := by
  unfold getTypesByKindRT
  rw [List.filter_eq_nil_iff]
  intro t _
  simpa using h t.kind

/-- Evaluates the C3 theorem at the concrete failing input
`kind = "widget"`. -/
theorem getTypesByKindRT_unknown_kind_silent_witness :
    (∀ k : EKind, kindToString k ≠ "widget")
      ∧ getTypesByKindRT [{ name := "M", kind := .kInterface }] "widget" = [] :=
  ⟨by decide, getTypesByKindRT_unknown_kind_silent _ "widget" (by decide)⟩

/-! ## Claim C5 — re-export record shapes -/

/-- C5: a namespace re-export clause yields exactly one record of kind
re-export with `reExportSource` the module specifier and no member names
(the `members` field is absent, read as the empty member list); a named
re-export clause with at least one named export yields exactly one record
with the same `reExportSource` and `members` the rendered names in order,
aliased entries rendered as `original as alias`. -/
theorem extractReExport_shapes (spec file mod : String) (nes : List NamedExport) :
    (∃ r, extractReExport ⟨some spec, nes, true⟩ file mod = some r
        ∧ r.kind = .kReExport ∧ r.reExportSource = some spec ∧ r.members.getD [] = [])
  ∧ (nes ≠ [] →
      ∃ r, extractReExport ⟨some spec, nes, false⟩ file mod = some r
        ∧ r.kind = .kReExport ∧ r.reExportSource = some spec
        ∧ r.members = some (nes.map renderNamedExport)) := by
  constructor
  · exact ⟨_, rfl, rfl, rfl, rfl⟩
  · intro h
    have he : extractReExport ⟨some spec, nes, false⟩ file mod
        = if 0 < nes.length then
            some { name := "\x7b " ++ String.intercalate ", " (nes.map renderNamedExport)
                           ++ " \x7d from \"" ++ spec ++ "\""
                   kind := .kReExport
                   exported := true
                   file := file
                   module := mod
                   signature := "export \x7b " ++ String.intercalate ", " (nes.map renderNamedExport)
                                ++ " \x7d from \"" ++ spec ++ "\""
                   reExportSource := some spec
                   members := some (nes.map renderNamedExport) }
          else none := rfl
    rw [if_pos (List.length_pos.mpr h)] at he
    exact ⟨_, he, rfl, rfl, rfl⟩

/-- Evaluates the C5 theorem at `export * from "./a"` and
`export { x, y as z } from "./b"`. -/
theorem extractReExport_shapes_witness :
    ([(⟨"x", none⟩ : NamedExport), ⟨"y", some "z"⟩] ≠ ([] : List NamedExport))
  ∧ (extractReExport ⟨some "./a", [], true⟩ "f.ts" "root").map (fun r => r.reExportSource)
      = some (some "./a")
  ∧ (extractReExport ⟨some "./b", [⟨"x", none⟩, ⟨"y", some "z"⟩], false⟩ "f.ts" "root").map
      (fun r => r.members) = some (some ["x", "y as z"]) := by
  refine ⟨by decide, ?_, ?_⟩
  · obtain ⟨r, hr, -, hsrc, -⟩ := (extractReExport_shapes "./a" "f.ts" "root" []).1
    rw [hr]
    simp [hsrc]
  · obtain ⟨r, hr, -, -, hm⟩ :=
      (extractReExport_shapes "./b" "f.ts" "root" [⟨"x", none⟩, ⟨"y", some "z"⟩]).2 (by decide)
    rw [hr]
    simp only [Option.map]
    rw [hm]
    decide

/-! ## Claim C4 — documentation extraction -/

/-- C4 counterexample: a declaration with one attached documentation
comment whose description is the single space `" "` (e.g. a comment
holding only tags, whose description is bare whitespace) gets
`docs = ""` — the docs field is present as an empty string, which the
claim rules out. -/
theorem getJsDocs_empty_string_docs :
    getJsDocs (some [⟨" ", "tag text"⟩]) = some "" := by decide

/-- C4 as amended: `docs` is absent exactly when no documentation
comments are attached; when comments exist and every description is
nonempty (the falsy-description fallback to the raw tag-bearing text does
not fire), `docs` is the *trimmed* newline-join of the descriptions —
which can itself be the empty string for whitespace-only descriptions. -/
theorem getJsDocs_amended (ds : List JsDocComment) :
    getJsDocs none = none
  ∧ getJsDocs (some []) = none
  ∧ (ds ≠ [] → (∀ d ∈ ds, d.description ≠ "") →
      getJsDocs (some ds)
        = some (strTrim (String.intercalate "\n" (ds.map (fun d => d.description))))) := by
  refine ⟨rfl, rfl, fun hne hdesc => ?_⟩
  have h0 : getJsDocs (some ds)
      = if 0 < ds.length then
          some (strTrim (String.intercalate "\n"
            ((ds.map (fun d => if d.description = "" then d.text else d.description)).filter
              (fun s => s ≠ ""))))
        else none := rfl
  have hmap : ds.map (fun d => if d.description = "" then d.text else d.description)
      = ds.map (fun d => d.description) :=
    List.map_congr_left (fun d hd => by rw [if_neg (hdesc d hd)])
  rw [h0, if_pos (List.length_pos.mpr hne), hmap, List.filter_eq_self.mpr ?_]
  intro s hs
  obtain ⟨d, hd, rfl⟩ := List.mem_map.mp hs
  simpa using hdesc d hd

/-- Evaluates the C4 amended theorem on one comment with description
`"hello"`. -/
theorem getJsDocs_amended_witness :
    ([(⟨"hello", ""⟩ : JsDocComment)] ≠ [])
  ∧ ((⟨"hello", ""⟩ : JsDocComment).description ≠ "")
  ∧ getJsDocs (some [⟨"hello", ""⟩])
      = some (strTrim (String.intercalate "\n"
          (([(⟨"hello", ""⟩ : JsDocComment)]).map (fun d => d.description)))) :=
  ⟨by decide, by decide, (getJsDocs_amended _).2.2 (by decide) (by decide)⟩

/-! ## Claim C9 — duplicates and self-inclusion in `children` -/

/-- C9: the `children` list of `getTypeHierarchy` can hold duplicates and
the queried declaration's own name — a declaration whose `extends` list
and `implements` list each contain a string including the target name
contributes its name twice, and the scan does not exclude the found
declaration itself, so self-referential `extends` text lists the target
among its own children. -/
theorem hierarchy_children_dup_self (idx : List ExtractedType) (q : String)
    (r : TypeHierarchy) (hr : getTypeHierarchy idx q = some r) :
    (∀ t ∈ idx,
      (t.extendsList.getD []).any (fun e => strIncludes e r.type.name) = true →
      (t.implements.getD []).any (fun i => strIncludes i r.type.name) = true →
      2 ≤ r.children.count t.name)
  ∧ ((r.type.extendsList.getD []).any (fun e => strIncludes e r.type.name) = true →
      r.type.name ∈ r.children) := by
  unfold getTypeHierarchy at hr
  cases hfind : idx.find? (fun t => strLower t.name = strLower q) with
  | none => rw [hfind] at hr; exact absurd hr (by simp)
  | some type =>
    rw [hfind] at hr
    injection hr with hr
    subst hr
    constructor
    · intro t ht hext himp
      obtain ⟨s, u, rfl⟩ := List.append_of_mem ht
      show 2 ≤ (((s ++ t :: u).flatMap (childBlock type.name)).count t.name)
      rw [List.flatMap_append, List.flatMap_cons, List.count_append, List.count_append]
      have hblock : childBlock type.name t = [t.name, t.name] := by
        unfold childBlock
        rw [if_pos hext, if_pos himp]
        rfl
      rw [hblock]
      have h2 : ([t.name, t.name].count t.name) = 2 := by
        simp [List.count_cons]
      omega
    · intro hext
      have htype : type ∈ idx := List.mem_of_find?_eq_some hfind
      show type.name ∈ idx.flatMap (childBlock type.name)
      apply List.mem_flatMap.mpr
      refine ⟨type, htype, ?_⟩
      unfold childBlock
      rw [if_pos hext]
      exact List.mem_append_left _ (List.mem_singleton.mpr rfl)

/-- Evaluates the C9 theorem on a one-element index whose sole
declaration extends text containing its own name and implements text
containing it too: its name appears twice among its own children. -/
theorem hierarchy_children_dup_self_witness :
    (getTypeHierarchy exC9 "Foo").map (fun r => r.children) = some ["Foo", "Foo"]
  ∧ 2 ≤ ((((getTypeHierarchy exC9 "Foo").map (fun r => r.children)).getD []).count "Foo") := by
  have hr : getTypeHierarchy exC9 "Foo"
      = some { type := { name := "Foo", kind := .kClass, extendsList := some ["Foo"],
                         implements := some ["XFooY"] }
               parents := ["Foo", "XFooY"]
               children := ["Foo", "Foo"] } := by decide
  refine ⟨by rw [hr]; rfl, ?_⟩
  have h2 := (hierarchy_children_dup_self exC9 "Foo" _ hr).1
      { name := "Foo", kind := .kClass, extendsList := some ["Foo"],
        implements := some ["XFooY"] }
      (by decide) (by decide) (by decide)
  rw [hr]
  exact h2

/-! ## Claim C8 — hierarchy symmetry (approximate) -/

/-- C8 counterexample: in the index `exC8`, declaration `Bar` has an
`extends` entry `"Foo"` containing declaration `Foo`'s name, yet
`getTypeHierarchy "Foo"` resolves the query to the *first*
case-insensitive match `"FOO"` and matches children case-sensitively
against that name, so its `children` list is empty — it does not contain
`"Bar"` as the claim requires. -/
theorem hierarchy_children_case_collision :
    strIncludes "Foo" "Foo" = true
  ∧ (getTypeHierarchy exC8 "Foo").map (fun r => r.children) = some [] := by decide

/-- C8 as amended: the symmetry holds whenever the first case-insensitive
match for `B`'s name is `B` itself (in particular whenever `B`'s name is
case-insensitively unique in the index): if some `extends` or
`implements` entry of `A` contains `B`'s name as a substring, `B`'s
computed `children` contain `A`'s name. -/
theorem hierarchy_children_amended (idx : List ExtractedType) (A B : ExtractedType)
    (hA : A ∈ idx)
    (hfind : idx.find? (fun t => strLower t.name = strLower B.name) = some B)
    (hsup : (∃ e ∈ A.extendsList.getD [], strIncludes e B.name = true)
          ∨ (∃ i ∈ A.implements.getD [], strIncludes i B.name = true)) :
    ∃ r, getTypeHierarchy idx B.name = some r ∧ A.name ∈ r.children := by
  refine ⟨_, getTypeHierarchy_of_find? hfind, ?_⟩
  apply List.mem_flatMap.mpr
  refine ⟨A, hA, ?_⟩
  unfold childBlock
  rcases hsup with ⟨e, he, hinc⟩ | ⟨i, hi, hinc⟩
  · rw [if_pos (List.any_eq_true.mpr ⟨e, he, hinc⟩)]
    exact List.mem_append_left _ (List.mem_singleton.mpr rfl)
  · apply List.mem_append_right
    rw [if_pos (List.any_eq_true.mpr ⟨i, hi, hinc⟩)]
    exact List.mem_singleton.mpr rfl

/-- Evaluates the C8 amended theorem on `exC8w`, where the queried name
`"Foo"` finds the declaration itself and `Bar extends Foo<T>` is reported
among `Foo`'s children. -/
theorem hierarchy_children_amended_witness :
    (({ name := "Bar", kind := .kClass, extendsList := some ["Foo<T>"] } : ExtractedType) ∈ exC8w)
  ∧ "Bar" ∈ (((getTypeHierarchy exC8w "Foo").map (fun r => r.children)).getD []) := by
  refine ⟨by decide, ?_⟩
  obtain ⟨r, hr, hmem⟩ := hierarchy_children_amended exC8w
      { name := "Bar", kind := .kClass, extendsList := some ["Foo<T>"] }
      { name := "Foo", kind := .kInterface }
      (by decide) (by decide) (Or.inl ⟨"Foo<T>", by decide, by decide⟩)
  have hr' : getTypeHierarchy exC8w "Foo" = some r := hr
  rw [hr']
  simpa using hmem

/-! ## Claim C10 — fuzzy search on the empty query -/

/-- C10 counterexample: on the empty query both the undocumented `exC10a`
and the documented `exC10b` score exactly 65 — the empty token of
`"".split(/\s+/) = [""]` is contained in every docs text, present or not,
so documentation earns no extra +5 — and the result keeps index order
instead of ranking the documented declaration ahead. -/
theorem fuzzySearch_empty_query_order :
    fuzzySearch [exC10a, exC10b] "" 20 = [exC10a, exC10b]
  ∧ fuzzyScore "" exC10a = 65 ∧ fuzzyScore "" exC10b = 65 := by decide

/-- C10 as amended: the empty query excludes nothing; every candidate
with a nonempty name scores exactly 65 (+50 prefix, +10 name-contains
token bonus, +5 docs-contains token bonus — the latter regardless of
whether docs are present, since the split's sole token is `""`), and the
result is the first `limit` declarations in index order. -/
theorem fuzzySearch_empty_query_amended (idx : List ExtractedType) (lim : Nat)
    (h : ∀ t ∈ idx, t.name ≠ "") :
    fuzzySearch idx "" lim = idx.take lim := by
  have hscore : ∀ t ∈ idx, fuzzyScore "" t = 65 := by
    intro t ht
    have heq : fuzzyScore "" t
        = (if strLower t.name = "" then 100
           else if strStartsWith (strLower t.name) "" then 50
           else if strIncludes (strLower t.name) "" then 25
           else 0)
          + (0 + (if strIncludes (strLower t.name) "" then 10 else 0)
               + (if strIncludes (strLower (t.docs.getD "")) "" then 5 else 0)) := rfl
    rw [heq, if_neg (fun hc => h t ht ((strLower_eq_empty_iff t.name).mp hc)),
      if_pos (strStartsWith_empty (strLower t.name)),
      if_pos (strIncludes_empty (strLower t.name)),
      if_pos (strIncludes_empty (strLower (t.docs.getD "")))]
  show ((((idx.map (fun t => (t, fuzzyScore "" t))).filter
      (fun s => 0 < s.2)).insertionSort scoreGE).take lim).map (·.1) = idx.take lim
  have hmap : idx.map (fun t => (t, fuzzyScore "" t)) = idx.map (fun t => (t, 65)) :=
    List.map_congr_left (fun t ht => by rw [hscore t ht])
  rw [hmap, List.filter_eq_self.mpr ?_]
  · have hsorted : ∀ l : List ExtractedType,
        List.Sorted scoreGE (l.map (fun t => (t, (65 : Nat)))) := by
      intro l
      induction l with
      | nil => simp
      | cons a l ih =>
        rw [List.map_cons, List.sorted_cons]
        refine ⟨fun b hb => ?_, ih⟩
        obtain ⟨t, -, rfl⟩ := List.mem_map.mp hb
        exact Nat.le_refl 65
    rw [List.Sorted.insertionSort_eq (hsorted idx), List.map_take, List.map_map]
    have hid : ((fun x : ExtractedType × Nat => x.1) ∘ fun t : ExtractedType => (t, (65 : Nat)))
        = id := rfl
    rw [hid, List.map_id]
  · intro s hs
    obtain ⟨t, -, rfl⟩ := List.mem_map.mp hs
    simp

/-- Evaluates the C10 amended theorem on a two-element index with
`limit = 1`. -/
theorem fuzzySearch_empty_query_amended_witness :
    (∀ t ∈ [exC10a, exC10b], t.name ≠ "")
  ∧ fuzzySearch [exC10a, exC10b] "" 1 = [exC10a, exC10b].take 1 :=
  ⟨by decide, fuzzySearch_empty_query_amended _ 1 (by decide)⟩

/-! ## Claim C1 — fuzzy search scoring and ranking -/

/-- C1 counterexample: for the query `"q "` (trailing whitespace) the
claim's token set is `{"q"}` and the candidate `zzz` scores 0, to be
excluded; the code splits to `["q", ""]` and the empty boundary token
matches every name (+10) and every docs text (+5), so `zzz` scores 15 and
is returned. -/
theorem fuzzySearch_boundary_space_included :
    fuzzySearch [exC1] "q " 20 = [exC1]
  ∧ specFuzzySearch [exC1] "q " 20 = [] := by decide

/-- C1 as amended: the claimed scoring, zero-score exclusion, stable
descending sort and truncation hold with the token list being
`query.split(/\s+/)`, which adds an empty token when the query is empty
or carries leading/trailing whitespace; whenever that split equals the
claim's whitespace-separated tokens (every query that is nonempty and has
no boundary whitespace), `fuzzySearch` computes exactly the claim's
ranking. -/
theorem fuzzySearch_spec_tokens (idx : List ExtractedType) (q : String) (lim : Nat)
    (h : jsSplitWs (strLower q) = specTokens (strLower q)) :
    fuzzySearch idx q lim = specFuzzySearch idx q lim := by
  have hs : ∀ t, fuzzyScore q t = specFuzzyScore q t := by
    intro t
    simp only [fuzzyScore, specFuzzyScore, h]
  simp only [fuzzySearch, specFuzzySearch, hs]

/-- Evaluates the C1 amended theorem on the two-word query
`"send message"`. -/
theorem fuzzySearch_spec_tokens_witness :
    (jsSplitWs (strLower "send message") = specTokens (strLower "send message"))
  ∧ fuzzySearch [exC1w] "send message" 20 = specFuzzySearch [exC1w] "send message" 20 :=
  ⟨by decide, fuzzySearch_spec_tokens _ _ 20 (by decide)⟩

/-! ## Claim C2 — statistics consistency: helper lemmas -/

theorem sumByKind_bumpKind (bk : EKind → Nat) (k : EKind) :
    sumByKind (bumpKind bk k) = sumByKind bk + 1 := by
  cases k <;> simp [sumByKind, bumpKind] <;> omega

theorem sumByKind_foldl (l : List ExtractedType) :
    ∀ bk : EKind → Nat,
      sumByKind (l.foldl (fun bk t => bumpKind bk t.kind) bk) = sumByKind bk + l.length := by
  induction l with
  | nil => intro bk; simp
  | cons t l ih =>
    intro bk
    rw [List.foldl_cons, ih, sumByKind_bumpKind, List.length_cons]
    omega

theorem byKind_foldl_count (l : List ExtractedType) :
    ∀ (bk : EKind → Nat) (k : EKind),
      (l.foldl (fun bk t => bumpKind bk t.kind) bk) k
        = bk k + (l.filter (fun t => t.kind = k)).length := by
  induction l with
  | nil => intro bk k; simp
  | cons t l ih =>
    intro bk k
    rw [List.foldl_cons, ih, List.filter_cons]
    by_cases hk : t.kind = k
    · rw [if_pos (by simpa using hk), List.length_cons, bumpKind, if_pos hk.symm]
      omega
    · rw [if_neg (by simpa using hk), bumpKind, if_neg (fun hc => hk hc.symm)]

theorem bumpStats_module (s : ModuleStatistics) (k : EKind) :
    (bumpStats s k).module = s.module := by
  cases k <;> rfl

theorem bumpStats_total (s : ModuleStatistics) (k : EKind) :
    (bumpStats s k).total = s.total + 1 := by
  cases k <;> rfl

theorem sumTotals_append (a b : List ModuleStatistics) :
    sumTotals (a ++ b) = sumTotals a + sumTotals b := by
  simp [sumTotals]

theorem addType_map_module (ms : List ModuleStatistics) (t : ExtractedType) :
    (addType ms t).map (fun s => s.module)
      = if ms.any (fun s => s.module = t.module) then ms.map (fun s => s.module)
        else ms.map (fun s => s.module) ++ [t.module] := by
  unfold addType
  by_cases hc : ms.any (fun s => s.module = t.module) = true
  · rw [if_pos hc, if_pos hc, List.map_map]
    apply List.map_congr_left
    intro s _
    by_cases hs : s.module = t.module
    · simp only [Function.comp_apply, if_pos hs, bumpStats_module]
    · simp only [Function.comp_apply, if_neg hs]
  · rw [if_neg hc, if_neg hc, List.map_append, List.map_singleton, bumpStats_module]
    rfl

theorem addType_nodup (ms : List ModuleStatistics) (t : ExtractedType)
    (h : (ms.map (fun s => s.module)).Nodup) :
    ((addType ms t).map (fun s => s.module)).Nodup := by
  rw [addType_map_module]
  by_cases hc : ms.any (fun s => s.module = t.module) = true
  · rw [if_pos hc]; exact h
  · rw [if_neg hc]
    have hnot : t.module ∉ ms.map (fun s => s.module) := by
      intro hmem
      obtain ⟨s, hs, hmod⟩ := List.mem_map.mp hmem
      exact hc (List.any_eq_true.mpr ⟨s, hs, by simp [hmod]⟩)
    refine List.Nodup.append h (List.nodup_singleton _) ?_
    intro x hx hx2
    rw [List.mem_singleton] at hx2
    subst hx2
    exact hnot hx

theorem bump_map_sumTotals (t : ExtractedType) :
    ∀ ms : List ModuleStatistics, (ms.map (fun s => s.module)).Nodup →
      ms.any (fun s => s.module = t.module) = true →
      sumTotals (ms.map (fun s => if s.module = t.module then bumpStats s t.kind else s))
        = sumTotals ms + 1 := by
  intro ms
  induction ms with
  | nil => intro _ h; simp at h
  | cons a ms ih =>
    intro hnd hany
    rw [List.map_cons] at hnd ⊢
    have hnd' := List.nodup_cons.mp hnd
    by_cases ha : a.module = t.module
    · rw [if_pos ha]
      have hrest : ms.map (fun s => if s.module = t.module then bumpStats s t.kind else s)
          = ms := by
        have hid : ∀ s ∈ ms, (if s.module = t.module then bumpStats s t.kind else s) = s := by
          intro s hs
          rw [if_neg ?_]
          intro hsm
          exact hnd'.1 (by rw [ha, ← hsm]; exact List.mem_map.mpr ⟨s, hs, rfl⟩)
        rw [List.map_congr_left hid]
        exact List.map_id ms
      rw [hrest]
      show sumTotals (bumpStats a t.kind :: ms) = sumTotals (a :: ms) + 1
      simp [sumTotals, bumpStats_total]
      omega
    · rw [if_neg ha]
      have hany' : ms.any (fun s => s.module = t.module) = true := by
        rcases List.any_eq_true.mp hany with ⟨s, hs, hsm⟩
        rcases List.mem_cons.mp hs with rfl | hs'
        · exact absurd (by simpa using hsm) ha
        · exact List.any_eq_true.mpr ⟨s, hs', hsm⟩
      show sumTotals (a :: ms.map _) = sumTotals (a :: ms) + 1
      simp only [sumTotals, List.map_cons, List.sum_cons]
      have := ih hnd'.2 hany'
      simp only [sumTotals] at this
      omega

theorem addType_sumTotals (ms : List ModuleStatistics) (t : ExtractedType)
    (h : (ms.map (fun s => s.module)).Nodup) :
    sumTotals (addType ms t) = sumTotals ms + 1 := by
  unfold addType
  by_cases hc : ms.any (fun s => s.module = t.module) = true
  · rw [if_pos hc]
    exact bump_map_sumTotals t ms h hc
  · rw [if_neg hc, sumTotals_append]
    show sumTotals ms + sumTotals [bumpStats (initStats t.module) t.kind] = sumTotals ms + 1
    simp [sumTotals, bumpStats_total, initStats]

theorem addType_mem_module (ms : List ModuleStatistics) (t : ExtractedType) (m : String) :
    m ∈ (addType ms t).map (fun s => s.module)
      ↔ m ∈ ms.map (fun s => s.module) ∨ m = t.module := by
  rw [addType_map_module]
  by_cases hc : ms.any (fun s => s.module = t.module) = true
  · rw [if_pos hc]
    constructor
    · exact Or.inl
    · rintro (h | hm)
      · exact h
      · subst hm
        rcases List.any_eq_true.mp hc with ⟨s, hs, hsm⟩
        exact List.mem_map.mpr ⟨s, hs, by simpa using hsm⟩
  · rw [if_neg hc]
    simp

theorem foldl_addType_nodup (l : List ExtractedType) :
    ∀ ms : List ModuleStatistics, (ms.map (fun s => s.module)).Nodup →
      ((l.foldl addType ms).map (fun s => s.module)).Nodup := by
  induction l with
  | nil => intro ms h; exact h
  | cons t l ih =>
    intro ms h
    rw [List.foldl_cons]
    exact ih _ (addType_nodup ms t h)

theorem foldl_addType_sumTotals (l : List ExtractedType) :
    ∀ ms : List ModuleStatistics, (ms.map (fun s => s.module)).Nodup →
      sumTotals (l.foldl addType ms) = sumTotals ms + l.length := by
  induction l with
  | nil => intro ms _; simp
  | cons t l ih =>
    intro ms h
    rw [List.foldl_cons, ih _ (addType_nodup ms t h), addType_sumTotals ms t h,
      List.length_cons]
    omega

theorem foldl_addType_mem (l : List ExtractedType) :
    ∀ (ms : List ModuleStatistics) (m : String),
      m ∈ (l.foldl addType ms).map (fun s => s.module)
        ↔ m ∈ ms.map (fun s => s.module) ∨ m ∈ l.map (fun t => t.module) := by
  induction l with
  | nil => intro ms m; simp
  | cons t l ih =>
    intro ms m
    rw [List.foldl_cons, ih, addType_mem_module, List.map_cons, List.mem_cons]
    tauto

/-! ## Claim C2 — statistics consistency -/

/-- C2: in every `getStatistics` result the eight `byKind` counters sum
to `totalDeclarations`, which equals the sum of the `total` fields over
`byModule`; `byKind` carries a count for each of the eight kinds, equal
to the number of declarations of that kind (zero when none); and
`byModule` has exactly one record per distinct module of the index
(duplicate-free keys covering exactly the modules that occur), sorted by
descending `total`. -/
theorem getStatistics_consistent (l : List ExtractedType) :
    sumByKind (getStatistics l).byKind = (getStatistics l).totalDeclarations
  ∧ (getStatistics l).totalDeclarations = sumTotals (getStatistics l).byModule
  ∧ (∀ k, (getStatistics l).byKind k = (l.filter (fun t => t.kind = k)).length)
  ∧ ((getStatistics l).byModule.map (fun s => s.module)).Nodup
  ∧ (∀ m, m ∈ (getStatistics l).byModule.map (fun s => s.module)
        ↔ m ∈ l.map (fun t => t.module))
  ∧ (getStatistics l).byModule.Pairwise totalGE := by
  have hperm : (List.insertionSort totalGE (l.foldl addType [])).Perm (l.foldl addType []) :=
    List.perm_insertionSort totalGE _
  have hnodup0 : (([] : List ModuleStatistics).map (fun s => s.module)).Nodup := by simp
  refine ⟨?_, ?_, ?_, ?_, ?_, ?_⟩
  · show sumByKind (l.foldl (fun bk t => bumpKind bk t.kind) (fun _ => 0)) = l.length
    rw [sumByKind_foldl]
    simp [sumByKind]
  · show l.length = sumTotals (List.insertionSort totalGE (l.foldl addType []))
    have hs : sumTotals (List.insertionSort totalGE (l.foldl addType []))
        = sumTotals (l.foldl addType []) := by
      unfold sumTotals
      exact List.Perm.sum_eq (List.Perm.map _ hperm)
    rw [hs, foldl_addType_sumTotals l [] hnodup0]
    simp [sumTotals]
  · intro k
    show (l.foldl (fun bk t => bumpKind bk t.kind) (fun _ => 0)) k
        = (l.filter (fun t => t.kind = k)).length
    rw [byKind_foldl_count]
    omega
  · show ((List.insertionSort totalGE (l.foldl addType [])).map (fun s => s.module)).Nodup
    exact ((List.Perm.map _ hperm).nodup_iff).mpr (foldl_addType_nodup l [] hnodup0)
  · intro m
    show m ∈ (List.insertionSort totalGE (l.foldl addType [])).map (fun s => s.module) ↔ _
    rw [(List.Perm.map (fun s => s.module) hperm).mem_iff, foldl_addType_mem]
    simp
  · show (List.insertionSort totalGE (l.foldl addType [])).Pairwise totalGE
    exact List.sorted_insertionSort totalGE _

/-! ## Claim C7 — type-text simplification: helper lemmas -/

theorem matchImport_shrink :
    ∀ l rest, matchImport l = some rest → rest.length + 3 ≤ l.length := by
  intro l rest h
  unfold matchImport at h
  split at h
  · next r =>
    split at h
    · exact absurd h (by simp)
    · split at h
      · next rest2 heq =>
        injection h with h2
        subst h2
        have hlen : (r.dropWhile (fun c => c ≠ ')')).length ≤ r.length :=
          (List.dropWhile_suffix _).length_le
        rw [heq] at hlen
        simp only [List.length_cons, List.length_cons] at hlen ⊢
        omega
      · exact absurd h (by simp)
  · exact absurd h (by simp)

theorem matchTypeofImport_shrink :
    ∀ l rest, matchTypeofImport l = some rest → rest.length + 3 ≤ l.length := by
  intro l rest h
  unfold matchTypeofImport at h
  split at h
  · next r =>
    have := matchImport_shrink r rest h
    simp only [List.length_cons]
    omega
  · exact absurd h (by simp)

theorem matchDrive_shrink :
    ∀ l rest, matchDrive l = some rest → rest.length + 3 ≤ l.length := by
  intro l rest h
  unfold matchDrive at h
  split at h
  · next r =>
    split at h
    · next hlen =>
      injection h with h2
      subst h2
      rw [List.length_drop]
      simp only [List.length_cons]
      omega
    · exact absurd h (by simp)
  · exact absurd h (by simp)

theorem replaceAllF_fuel (m : List Char → Option (List Char))
    (hm : ∀ l rest, m l = some rest → rest.length + 3 ≤ l.length) :
    ∀ f₁ f₂ l, l.length < f₁ → l.length < f₂ → replaceAllF m f₁ l = replaceAllF m f₂ l := by
  intro f₁
  induction f₁ with
  | zero => intro f₂ l h1 _; exact absurd h1 (Nat.not_lt_zero _)
  | succ f₁ ih =>
    intro f₂ l h1 h2
    cases f₂ with
    | zero => exact absurd h2 (Nat.not_lt_zero _)
    | succ f₂ =>
      cases l with
      | nil => rfl
      | cons c cs =>
        simp only [replaceAllF]
        cases hmc : m (c :: cs) with
        | none =>
          simp only [List.length_cons] at h1 h2
          rw [ih f₂ cs (by omega) (by omega)]
        | some rest =>
          have := hm _ _ hmc
          simp only [List.length_cons] at h1 h2 this
          exact ih f₂ rest (by omega) (by omega)

theorem replaceAll_cons_none {m : List Char → Option (List Char)} {c : Char}
    {cs : List Char} (h : m (c :: cs) = none) :
    replaceAll m (c :: cs) = c :: replaceAll m cs := by
  show replaceAllF m ((c :: cs).length + 1) (c :: cs) = c :: replaceAllF m (cs.length + 1) cs
  have hl : (c :: cs).length + 1 = (cs.length + 1) + 1 := by simp
  rw [hl]
  simp only [replaceAllF, h]

theorem replaceAll_cons_some {m : List Char → Option (List Char)} {c : Char}
    {cs rest : List Char}
    (hm : ∀ l rest, m l = some rest → rest.length + 3 ≤ l.length)
    (h : m (c :: cs) = some rest) :
    replaceAll m (c :: cs) = replaceAll m rest := by
  have hlen := hm _ _ h
  simp only [List.length_cons] at hlen
  show replaceAllF m ((c :: cs).length + 1) (c :: cs) = replaceAllF m (rest.length + 1) rest
  have hl : (c :: cs).length + 1 = (cs.length + 1) + 1 := by simp
  rw [hl]
  simp only [replaceAllF, h]
  exact replaceAllF_fuel m hm _ _ rest (by omega) (by omega)

theorem takeWhile_append_stop {p : Char → Bool} :
    ∀ (s : List Char) (c : Char) (t : List Char), (∀ x ∈ s, p x = true) → p c = false →
      (s ++ c :: t).takeWhile p = s := by
  intro s
  induction s with
  | nil => intro c t _ hc; simp [List.takeWhile_cons, hc]
  | cons a s ih =>
    intro c t hall hc
    rw [List.cons_append, List.takeWhile_cons, if_pos (hall a (List.mem_cons_self a s)),
      ih c t (fun x hx => hall x (List.mem_cons_of_mem a hx)) hc]

theorem dropWhile_append_stop {p : Char → Bool} :
    ∀ (s : List Char) (c : Char) (t : List Char), (∀ x ∈ s, p x = true) → p c = false →
      (s ++ c :: t).dropWhile p = c :: t := by
  intro s
  induction s with
  | nil => intro c t _ hc; simp [List.dropWhile_cons, hc]
  | cons a s ih =>
    intro c t hall hc
    rw [List.cons_append, List.dropWhile_cons, if_pos (hall a (List.mem_cons_self a s)),
      ih c t (fun x hx => hall x (List.mem_cons_of_mem a hx)) hc]

theorem matchImport_hit (s t : List Char) (hs : s ≠ []) (hn : ')' ∉ s) :
    matchImport ('i' :: 'm' :: 'p' :: 'o' :: 'r' :: 't' :: '(' :: (s ++ ')' :: '.' :: t))
      = some t := by
  have hall : ∀ x ∈ s, (fun c : Char => decide (c ≠ ')')) x = true := by
    intro x hx
    simp only [decide_eq_true_eq]
    intro hx'
    exact hn (hx' ▸ hx)
  have htake : (s ++ ')' :: '.' :: t).takeWhile (fun c => c ≠ ')') = s :=
    takeWhile_append_stop s ')' ('.' :: t) hall (by simp)
  have hdrop : (s ++ ')' :: '.' :: t).dropWhile (fun c => c ≠ ')') = ')' :: '.' :: t :=
    dropWhile_append_stop s ')' ('.' :: t) hall (by simp)
  simp only [matchImport]
  rw [htake, hdrop, if_neg (by simpa [List.isEmpty_iff] using hs)]
  rfl

theorem matchTypeofImport_hit (s t : List Char) (hs : s ≠ []) (hn : ')' ∉ s) :
    matchTypeofImport ('t' :: 'y' :: 'p' :: 'e' :: 'o' :: 'f' :: ' ' :: 'i' :: 'm' :: 'p'
        :: 'o' :: 'r' :: 't' :: '(' :: (s ++ ')' :: '.' :: t))
      = some t := by
  show matchImport ('i' :: 'm' :: 'p' :: 'o' :: 'r' :: 't' :: '(' :: (s ++ ')' :: '.' :: t))
      = some t
  exact matchImport_hit s t hs hn

theorem matchDrive_hit (r u : List Char) (hr : r ≠ []) (hq : '"' ∉ r) :
    matchDrive ('d' :: ':' :: '/' :: (r ++ '/' :: '"' :: u)) = some ('"' :: u) := by
  have hall : ∀ x ∈ r ++ ['/'], (fun c : Char => decide (c ≠ '"')) x = true := by
    intro x hx
    simp only [decide_eq_true_eq]
    rcases List.mem_append.mp hx with hx' | hx'
    · intro hc; exact hq (hc ▸ hx')
    · rw [List.mem_singleton.mp hx']; simp
  have hassoc : r ++ '/' :: '"' :: u = (r ++ ['/']) ++ '"' :: u := by simp
  have htake : (r ++ '/' :: '"' :: u).takeWhile (fun c => c ≠ '"') = r ++ ['/'] := by
    rw [hassoc]
    exact takeWhile_append_stop (r ++ ['/']) '"' u hall (by simp)
  simp only [matchDrive]
  rw [htake, List.reverse_append]
  have hrev : (['/'].reverse ++ r.reverse).dropWhile (fun c => c ≠ '/')
      = '/' :: r.reverse := by
    simp [List.dropWhile_cons]
  rw [hrev]
  have hlen : 2 ≤ ('/' :: r.reverse).length := by
    simp only [List.length_cons, List.length_reverse]
    have := List.length_pos.mpr hr
    omega
  rw [if_pos hlen]
  congr 1
  simp only [List.length_cons, List.length_reverse]
  rw [hassoc, List.drop_left' (by simp)]

theorem matchImport_none_of_head (c : Char) (l : List Char) (hc : c ≠ 'i') :
    matchImport (c :: l) = none := by
  unfold matchImport
  split
  · next heq => injection heq with h1 _; exact absurd h1 hc
  · rfl

theorem matchTypeofImport_none_of_head (c : Char) (l : List Char) (hc : c ≠ 't') :
    matchTypeofImport (c :: l) = none := by
  unfold matchTypeofImport
  split
  · next heq => injection heq with h1 _; exact absurd h1 hc
  · rfl

theorem matchDrive_none_of_head (c : Char) (l : List Char) (hc : c ≠ 'd') :
    matchDrive (c :: l) = none := by
  unfold matchDrive
  split
  · next heq => injection heq with h1 _; exact absurd h1 hc
  · rfl

theorem replaceAll_append_none (m : List Char → Option (List Char)) :
    ∀ (frag rest : List Char),
      (∀ (c : Char) (f₂ : List Char), (c :: f₂) <:+ frag → m (c :: (f₂ ++ rest)) = none) →
      replaceAll m (frag ++ rest) = frag ++ replaceAll m rest := by
  intro frag
  induction frag with
  | nil => intro rest _; rfl
  | cons c frag ih =>
    intro rest h
    have h0 : m (c :: (frag ++ rest)) = none := h c frag (List.suffix_refl _)
    rw [List.cons_append, replaceAll_cons_none h0,
      ih rest (fun c' f₂ hsuf => h c' f₂ (hsuf.trans (List.suffix_cons c frag)))]
    simp

theorem replaceAll_matchImport_passthrough (frag rest : List Char)
    (h : ∀ c ∈ frag, c ≠ 'i') :
    replaceAll matchImport (frag ++ rest) = frag ++ replaceAll matchImport rest := by
  apply replaceAll_append_none
  intro c f₂ hsuf
  exact matchImport_none_of_head c _ (h c (hsuf.subset (List.mem_cons_self c f₂)))

theorem replaceAll_matchTypeofImport_passthrough (frag rest : List Char)
    (h : ∀ c ∈ frag, c ≠ 't') :
    replaceAll matchTypeofImport (frag ++ rest)
      = frag ++ replaceAll matchTypeofImport rest := by
  apply replaceAll_append_none
  intro c f₂ hsuf
  exact matchTypeofImport_none_of_head c _ (h c (hsuf.subset (List.mem_cons_self c f₂)))

theorem dropWhile_head?_false {α : Type} (p : α → Bool) :
    ∀ (l : List α) (c : α), (l.dropWhile p).head? = some c → p c = false := by
  intro l
  induction l with
  | nil => intro c h; simp [List.dropWhile] at h
  | cons a l ih =>
    intro c h
    rw [List.dropWhile_cons] at h
    by_cases hp : p a = true
    · rw [if_pos hp] at h
      exact ih c h
    · rw [if_neg hp] at h
      simp only [List.head?_cons, Option.some.injEq] at h
      subst h
      exact Bool.eq_false_iff.mpr hp

theorem collapseWsGo_true_head :
    ∀ (l : List Char) (c : Char) (cs : List Char),
      collapseWsGo true l = c :: cs → c.isWhitespace = false := by
  intro l
  induction l with
  | nil => intro c cs h; simp [collapseWsGo] at h
  | cons a l ih =>
    intro c cs h
    by_cases ha : a.isWhitespace = true
    · simp only [collapseWsGo, ha, if_true] at h
      exact ih c cs h
    · simp only [collapseWsGo, ha, if_false, Bool.false_eq_true, List.cons.injEq] at h
      rw [← h.1]
      exact Bool.eq_false_iff.mpr ha

theorem collapseWsGo_chain :
    ∀ (l : List Char) (b : Bool),
      List.Chain' (fun x y : Char => ¬(x.isWhitespace = true ∧ y.isWhitespace = true))
        (collapseWsGo b l) := by
  intro l
  induction l with
  | nil => intro b; simp [collapseWsGo]
  | cons a l ih =>
    intro b
    by_cases ha : a.isWhitespace = true
    · cases b
      · have heq : collapseWsGo false (a :: l) = ' ' :: collapseWsGo true l := by
          simp [collapseWsGo, ha]
        rw [heq, List.chain'_cons']
        refine ⟨?_, ih true⟩
        intro y hy
        cases hcl : collapseWsGo true l with
        | nil => rw [hcl] at hy; simp at hy
        | cons c cs =>
          rw [hcl] at hy
          simp only [List.head?_cons, Option.mem_def, Option.some.injEq] at hy
          subst hy
          intro hcon
          rw [collapseWsGo_true_head l c cs hcl] at hcon
          exact absurd hcon.2 (by simp)
      · have heq : collapseWsGo true (a :: l) = collapseWsGo true l := by
          simp [collapseWsGo, ha]
        rw [heq]
        exact ih true
    · have heq : collapseWsGo b (a :: l) = a :: collapseWsGo false l := by
        simp [collapseWsGo, ha]
      rw [heq, List.chain'_cons']
      refine ⟨?_, ih false⟩
      intro y _ hcon
      exact ha hcon.1

theorem trimChars_head (x : List Char) :
    ∀ c, (trimChars x).head? = some c → c.isWhitespace = false := by
  intro c hc
  unfold trimChars at hc
  rw [List.head?_reverse] at hc
  obtain ⟨pre, hpre⟩ :=
    List.dropWhile_suffix (l := (x.dropWhile Char.isWhitespace).reverse) Char.isWhitespace
  have h1 : (x.dropWhile Char.isWhitespace).reverse.getLast? = some c := by
    rw [← hpre, List.getLast?_append, hc]
    rfl
  rw [List.getLast?_reverse] at h1
  exact dropWhile_head?_false _ x c h1

theorem trimChars_getLast (x : List Char) :
    ∀ c, (trimChars x).getLast? = some c → c.isWhitespace = false := by
  intro c hc
  unfold trimChars at hc
  rw [List.getLast?_reverse] at hc
  exact dropWhile_head?_false _ _ c hc

theorem trimChars_chain (x : List Char)
    (h : List.Chain' (fun a b : Char => ¬(a.isWhitespace = true ∧ b.isWhitespace = true)) x) :
    List.Chain' (fun a b : Char => ¬(a.isWhitespace = true ∧ b.isWhitespace = true))
      (trimChars x) := by
  unfold trimChars
  have h1 : List.Chain' (fun a b : Char => ¬(a.isWhitespace = true ∧ b.isWhitespace = true))
      (x.dropWhile Char.isWhitespace) :=
    h.suffix (List.dropWhile_suffix Char.isWhitespace)
  have h2 : List.Chain' (fun a b : Char => ¬(a.isWhitespace = true ∧ b.isWhitespace = true))
      (x.dropWhile Char.isWhitespace).reverse :=
    List.chain'_reverse.mpr (h1.imp (fun a b hab hcon => hab ⟨hcon.2, hcon.1⟩))
  have h3 : List.Chain' (fun a b : Char => ¬(a.isWhitespace = true ∧ b.isWhitespace = true))
      ((x.dropWhile Char.isWhitespace).reverse.dropWhile Char.isWhitespace) :=
    h2.suffix (List.dropWhile_suffix Char.isWhitespace)
  exact List.chain'_reverse.mpr (h3.imp (fun a b hab hcon => hab ⟨hcon.2, hcon.1⟩))

/-! ## Claim C7 — type-text simplification -/

/-- C7 counterexample: `simplifyType` leaves the absolute path fragments
`c:/users/x/` and `/home/user/lib/` untouched — its path regex matches
only lowercase `d:` drive paths — so it does not strip "any absolute
filesystem path fragments" as the claim states. -/
theorem simplifyType_keeps_other_paths :
    simplifyType "c:/users/x/Foo" = "c:/users/x/Foo"
  ∧ simplifyType "/home/user/lib/Foo" = "/home/user/lib/Foo"
  ∧ simplifyType "d:/users/x/Foo" = "Foo" := by decide

/-- C7 as amended: the simplification removes each `import(...).`
qualification (which also serves the `typeof import(...).` form, leaving
`typeof` itself in place), removes absolute path fragments only of the
`d:/.../` shape (lowercase drive `d`, through the last slash of the
following quote-free run), and collapses every whitespace run to a single
space and trims — the output has no adjacent whitespace and no leading or
trailing whitespace. -/
theorem simplifyType_amended (s t r u x : List Char) :
    (s ≠ [] → ')' ∉ s →
      simplifyTypeChars
          ('i' :: 'm' :: 'p' :: 'o' :: 'r' :: 't' :: '(' :: (s ++ ')' :: '.' :: t))
        = simplifyTypeChars t)
  ∧ (s ≠ [] → ')' ∉ s →
      simplifyTypeChars
          ('t' :: 'y' :: 'p' :: 'e' :: 'o' :: 'f' :: ' ' :: 'i' :: 'm' :: 'p' :: 'o'
            :: 'r' :: 't' :: '(' :: (s ++ ')' :: '.' :: t))
        = simplifyTypeChars ('t' :: 'y' :: 'p' :: 'e' :: 'o' :: 'f' :: ' ' :: t))
  ∧ (r ≠ [] → '"' ∉ r → 'i' ∉ r → 't' ∉ r →
      simplifyTypeChars ('d' :: ':' :: '/' :: (r ++ '/' :: '"' :: u))
        = simplifyTypeChars ('"' :: u))
  ∧ ((∀ c, (simplifyTypeChars x).head? = some c → c.isWhitespace = false)
      ∧ (∀ c, (simplifyTypeChars x).getLast? = some c → c.isWhitespace = false)
      ∧ List.Chain' (fun a b : Char => ¬(a.isWhitespace = true ∧ b.isWhitespace = true))
          (simplifyTypeChars x)) := by
  refine ⟨?_, ?_, ?_, ?_, ?_, ?_⟩
  · intro hs hn
    have h0 : replaceAll matchImport
        ('i' :: 'm' :: 'p' :: 'o' :: 'r' :: 't' :: '(' :: (s ++ ')' :: '.' :: t))
        = replaceAll matchImport t :=
      replaceAll_cons_some matchImport_shrink (matchImport_hit s t hs hn)
    unfold simplifyTypeChars
    rw [h0]
  · intro hs hn
    have h0 : replaceAll matchImport
        ('i' :: 'm' :: 'p' :: 'o' :: 'r' :: 't' :: '(' :: (s ++ ')' :: '.' :: t))
        = replaceAll matchImport t :=
      replaceAll_cons_some matchImport_shrink (matchImport_hit s t hs hn)
    have hL : replaceAll matchImport
        ('t' :: 'y' :: 'p' :: 'e' :: 'o' :: 'f' :: ' ' :: 'i' :: 'm' :: 'p' :: 'o'
          :: 'r' :: 't' :: '(' :: (s ++ ')' :: '.' :: t))
        = 't' :: 'y' :: 'p' :: 'e' :: 'o' :: 'f' :: ' ' :: replaceAll matchImport t := by
      have hp := replaceAll_matchImport_passthrough ['t', 'y', 'p', 'e', 'o', 'f', ' ']
        ('i' :: 'm' :: 'p' :: 'o' :: 'r' :: 't' :: '(' :: (s ++ ')' :: '.' :: t))
        (by decide)
      rw [h0] at hp
      exact hp
    have hR : replaceAll matchImport ('t' :: 'y' :: 'p' :: 'e' :: 'o' :: 'f' :: ' ' :: t)
        = 't' :: 'y' :: 'p' :: 'e' :: 'o' :: 'f' :: ' ' :: replaceAll matchImport t := by
      have hp := replaceAll_matchImport_passthrough ['t', 'y', 'p', 'e', 'o', 'f', ' '] t
        (by decide)
      exact hp
    unfold simplifyTypeChars
    rw [hL, hR]
  · intro hr hq hi ht
    have hsplit : r ++ '/' :: '"' :: u = (r ++ ['/']) ++ '"' :: u := by simp
    have hfrag_i : ∀ c ∈ 'd' :: ':' :: '/' :: (r ++ ['/']), c ≠ 'i' := by
      intro c hc
      rcases List.mem_cons.mp hc with rfl | hc
      · decide
      rcases List.mem_cons.mp hc with rfl | hc
      · decide
      rcases List.mem_cons.mp hc with rfl | hc
      · decide
      rcases List.mem_append.mp hc with hc | hc
      · exact fun h => hi (h ▸ hc)
      · rw [List.mem_singleton.mp hc]; decide
    have hfrag_t : ∀ c ∈ 'd' :: ':' :: '/' :: (r ++ ['/']), c ≠ 't' := by
      intro c hc
      rcases List.mem_cons.mp hc with rfl | hc
      · decide
      rcases List.mem_cons.mp hc with rfl | hc
      · decide
      rcases List.mem_cons.mp hc with rfl | hc
      · decide
      rcases List.mem_append.mp hc with hc | hc
      · exact fun h => ht (h ▸ hc)
      · rw [List.mem_singleton.mp hc]; decide
    have s1R : replaceAll matchImport ('"' :: u) = '"' :: replaceAll matchImport u :=
      replaceAll_cons_none (matchImport_none_of_head _ _ (by decide))
    have s1L : replaceAll matchImport ('d' :: ':' :: '/' :: ((r ++ ['/']) ++ '"' :: u))
        = 'd' :: ':' :: '/' :: ((r ++ ['/']) ++ ('"' :: replaceAll matchImport u)) := by
      have hp := replaceAll_matchImport_passthrough ('d' :: ':' :: '/' :: (r ++ ['/']))
        ('"' :: u) hfrag_i
      rw [s1R] at hp
      exact hp
    have s2R : replaceAll matchTypeofImport ('"' :: replaceAll matchImport u)
        = '"' :: replaceAll matchTypeofImport (replaceAll matchImport u) :=
      replaceAll_cons_none (matchTypeofImport_none_of_head _ _ (by decide))
    have s2L : replaceAll matchTypeofImport
        ('d' :: ':' :: '/' :: ((r ++ ['/']) ++ ('"' :: replaceAll matchImport u)))
        = 'd' :: ':' :: '/' :: ((r ++ ['/'])
            ++ ('"' :: replaceAll matchTypeofImport (replaceAll matchImport u))) := by
      have hp := replaceAll_matchTypeofImport_passthrough
        ('d' :: ':' :: '/' :: (r ++ ['/'])) ('"' :: replaceAll matchImport u) hfrag_t
      rw [s2R] at hp
      exact hp
    have s3L : replaceAll matchDrive
        ('d' :: ':' :: '/' :: ((r ++ ['/'])
          ++ ('"' :: replaceAll matchTypeofImport (replaceAll matchImport u))))
        = replaceAll matchDrive
            ('"' :: replaceAll matchTypeofImport (replaceAll matchImport u)) := by
      have hback : (r ++ ['/'])
          ++ ('"' :: replaceAll matchTypeofImport (replaceAll matchImport u))
          = r ++ '/' :: '"' :: replaceAll matchTypeofImport (replaceAll matchImport u) := by
        simp
      rw [hback]
      exact replaceAll_cons_some matchDrive_shrink
        (matchDrive_hit r (replaceAll matchTypeofImport (replaceAll matchImport u)) hr hq)
    show simplifyTypeChars ('d' :: ':' :: '/' :: (r ++ '/' :: '"' :: u))
        = simplifyTypeChars ('"' :: u)
    rw [show ('d' :: ':' :: '/' :: (r ++ '/' :: '"' :: u))
        = 'd' :: ':' :: '/' :: ((r ++ ['/']) ++ '"' :: u) from by rw [hsplit]]
    unfold simplifyTypeChars
    rw [s1L, s2L, s3L, s1R, s2R]
  · intro c hc
    exact trimChars_head _ c hc
  · intro c hc
    exact trimChars_getLast _ c hc
  · exact trimChars_chain _ (collapseWsGo_chain _ false)

/-- Evaluates the C7 amended theorem at `s = "x"`, `t = "Foo"`,
`r = "users/abc"`, `u = "Bar"` and a whitespace-laden input. -/
theorem simplifyType_amended_witness :
    simplifyTypeChars
        ('i' :: 'm' :: 'p' :: 'o' :: 'r' :: 't' :: '(' :: (['x'] ++ ')' :: '.' :: ['F', 'o', 'o']))
      = simplifyTypeChars ['F', 'o', 'o']
  ∧ simplifyTypeChars
        ('t' :: 'y' :: 'p' :: 'e' :: 'o' :: 'f' :: ' ' :: 'i' :: 'm' :: 'p' :: 'o'
          :: 'r' :: 't' :: '(' :: (['x'] ++ ')' :: '.' :: ['F', 'o', 'o']))
      = simplifyTypeChars ('t' :: 'y' :: 'p' :: 'e' :: 'o' :: 'f' :: ' ' :: ['F', 'o', 'o'])
  ∧ simplifyTypeChars
        ('d' :: ':' :: '/' :: (['u', 's', 'e', 'r', 's'] ++ '/' :: '"' :: ['B', 'a', 'r']))
      = simplifyTypeChars ('"' :: ['B', 'a', 'r'])
  ∧ ('a' : Char).isWhitespace = false :=
  ⟨(simplifyType_amended ['x'] ['F', 'o', 'o'] [] [] []).1 (by decide) (by decide),
   (simplifyType_amended ['x'] ['F', 'o', 'o'] [] [] []).2.1 (by decide) (by decide),
   (simplifyType_amended [] [] ['u', 's', 'e', 'r', 's'] ['B', 'a', 'r'] []).2.2.1
     (by decide) (by decide) (by decide) (by decide),
   (simplifyType_amended [] [] [] [] [' ', 'a', ' ']).2.2.2.1 'a' (by decide)⟩

end Whaileys
